import Mathlib

/-!
Verification of the storage layer of the docker-postgres-backuper repository.

The development shallowly embeds the Go source in Lean:

* Go strings are modelled as lists of characters (type Str below); for valid
  UTF-8 input, byte-wise string comparison in Go coincides with the
  code-point-wise comparison used here.
* Go time.Time values are modelled as an integer count of seconds since the
  zero instant, so that the zero Time value is the integer 0, Before is the
  strict order on integers, and Add of a duration is integer addition.
* Effectful operations (deleting objects, sleeping between retry attempts,
  writing temporary files) are instrumented: the embedded functions return,
  alongside the value the Go function returns, a trace of the effects the
  Go code performs, and take the outcomes of fallible external calls as
  explicit function arguments.

Each embedded definition cites the Go function it translates.
-/

namespace Backuper

/-- Model of a Go string: its list of characters. -/
abbrev Str := List Char

/-- Coercion from Lean string literals into the model. -/
def str (s : String) : Str := s.data

/-- Model of the Go time.Time type: seconds since the zero instant.
The Go zero value time.Time\x7b\x7d corresponds to the integer 0, so
IsZero is comparison with 0, Before is the strict integer order, and
adding a duration of d seconds is integer addition of d. -/
abbrev Time := Int

/-- Model of strings.Split with a one-character separator: splits at every
occurrence of the separator, keeping empty fields, producing one more field
than there are separators (Go semantics). -/
def splitOnChar (sep : Char) : Str → List Str
  | [] => [[]]
  | c :: rest =>
    let r := splitOnChar sep rest
    if c = sep then [] :: r
    else (c :: r.headD []) :: r.tail

/-- Model of strings.TrimPrefix: drops the prefix when present, otherwise
returns the string unchanged. -/
def goTrimLeading (s p : Str) : Str :=
  if p.isPrefixOf s then s.drop p.length else s

/-- Byte-wise comparison of Go strings, modelled code-point-wise (for UTF-8
encoded strings the two orders agree). Used to model sort.Strings. -/
def strLe : Str → Str → Bool
  | [], _ => true
  | _ :: _, [] => false
  | a :: as, b :: bs =>
    if a.toNat < b.toNat then true
    else if b.toNat < a.toNat then false
    else strLe as bs

/-- Insertion into a sorted list, the building block of the model of
sort.Strings. -/
def insertStr (x : Str) : List Str → List Str
  | [] => [x]
  | y :: ys => if strLe x y then x :: y :: ys else y :: insertStr x ys

/-- Model of sort.Strings: any correct sort produces the same list of
strings because duplicated strings are indistinguishable; insertion sort is
used here. -/
def sortStrings : List Str → List Str
  | [] => []
  | x :: xs => insertStr x (sortStrings xs)

/-! ## Retention

Embeds the shared retention pass (function Cleanup of the storage package,
src/unnamed/part_004) and the historical retention helpers of
src/internal/storage/retention.go together with the object-store cleanup
loop of src/internal/storage/s3.go that uses them.
-/

/-- Translation of the FileInfo structure of the storage package: one listed
backup artifact, with its name and last-modified instant. -/
structure FileInfo where
  name : Str
  modified : Time
  deriving DecidableEq, Repr

/-- Trace of one retention pass: the keys on which Delete was invoked, in
order, and the delete failure that aborted the pass, when one did. -/
structure CleanupTrace where
  attempts : List Str
  aborted : Option Str
  deriving DecidableEq, Repr

/-- Loop body of the shared Cleanup function (src/unnamed/part_004).  The
four cutoffs are computed before the loop, exactly as in the source.  The
argument del gives the outcome of each Delete call; the source discards
that outcome (the statement underscore = p.Delete(...)), so the recursion
never inspects del.  The returned list collects the names passed to
Delete. -/
def cleanupGo (dailyRetention weeklyRetention monthlyRetention manualRetention : Time)
    (del : Str → Bool) : List FileInfo → List Str
  | [] => []
  | file :: rest =>
    let parts := splitOnChar '_' file.name
    if parts.length < 2 then
      cleanupGo dailyRetention weeklyRetention monthlyRetention manualRetention del rest
    else
      let backupType := parts.getD 1 []
      let cutoff? : Option Time :=
        if backupType = str "daily" then some dailyRetention
        else if backupType = str "weekly" then some weeklyRetention
        else if backupType = str "monthly" then some monthlyRetention
        else if backupType = str "manual" then some manualRetention
        else none
      match cutoff? with
      | none =>
        cleanupGo dailyRetention weeklyRetention monthlyRetention manualRetention del rest
      | some cutoff =>
        if file.modified ≠ 0 ∧ file.modified < cutoff then
          file.name ::
            cleanupGo dailyRetention weeklyRetention monthlyRetention manualRetention del rest
        else
          cleanupGo dailyRetention weeklyRetention monthlyRetention manualRetention del rest

/-- Translation of the shared Cleanup function (src/unnamed/part_004): lists
the artifacts of one database (passed here as the files argument), computes
the four retention cutoffs from now, and walks the list attempting deletes;
the result of each delete is discarded and the function returns nil. -/
def Cleanup (files : List FileInfo) (now : Time) (del : Str → Bool) : List Str :=
  cleanupGo (now + (-(7 * 24 * 3600))) (now + (-(30 * 24 * 3600)))
    (now + (-(365 * 24 * 3600))) (now + (-(365 * 24 * 3600))) del files

/-- Translation of parseBackupType (src/internal/storage/retention.go):
requires at least three underscore-delimited fields and yields the
second. -/
def parseBackupType (filename : Str) : Option Str :=
  let parts := splitOnChar '_' filename
  if parts.length < 3 then none
  else some (parts.getD 1 [])

/-- Translation of shouldRemove (src/internal/storage/retention.go).  Note
that the switch has no manual case, so manual backups fall through to the
default and are never removed by this variant. -/
def shouldRemove (backupType : Str) (modifiedAt now : Time) : Bool :=
  if backupType = str "daily" then modifiedAt < now + (-(7 * 24 * 3600))
  else if backupType = str "weekly" then modifiedAt < now + (-(30 * 24 * 3600))
  else if backupType = str "monthly" then modifiedAt < now + (-(365 * 24 * 3600))
  else false

/-- One object of a list-bucket response as consumed by the historical
S3.Cleanup (src/internal/storage/s3.go): the key, and the result of
parseS3Time on its LastModified field (none models a parse failure). -/
structure S3Object where
  key : Str
  lastModified : Option Time
  deriving DecidableEq, Repr

/-- Loop body of the historical S3.Cleanup (src/internal/storage/s3.go,
the for-loop over result.Contents).  The argument del gives the outcome of
each deleteObject call; on a failed delete the source returns the error
immediately, aborting the pass. -/
def s3CleanupGo (trimPre : Str) (now : Time) (del : Str → Bool) :
    List S3Object → CleanupTrace
  | [] => ⟨[], none⟩
  | o :: rest =>
    let name := if trimPre ≠ [] then goTrimLeading o.key trimPre else o.key
    if name = [] then s3CleanupGo trimPre now del rest
    else
      match parseBackupType name with
      | none => s3CleanupGo trimPre now del rest
      | some backupType =>
        match o.lastModified with
        | none => s3CleanupGo trimPre now del rest
        | some modTime =>
          if shouldRemove backupType modTime now then
            if del o.key then
              let t := s3CleanupGo trimPre now del rest
              ⟨o.key :: t.attempts, t.aborted⟩
            else ⟨[o.key], some o.key⟩
          else s3CleanupGo trimPre now del rest

/-- Modelled from the spec (retention rule table of section 3): the maximum
age of each recognised classification, in seconds; none for unrecognised
classifications. -/
def retentionMaxAge (classification : Str) : Option Time :=
  if classification = str "daily" then some (7 * 24 * 3600)
  else if classification = str "weekly" then some (30 * 24 * 3600)
  else if classification = str "monthly" then some (365 * 24 * 3600)
  else if classification = str "manual" then some (365 * 24 * 3600)
  else none

/-- Modelled from the spec, as amended: an artifact is evicted by the shared
Cleanup exactly when its classification token (the second
underscore-delimited field of its name) carries a retention rule, its
last-modified instant is not the zero instant, and it is strictly older
than the maximum age allows. -/
def specEvicts (now : Time) (f : FileInfo) : Bool :=
  let parts := splitOnChar '_' f.name
  if 2 ≤ parts.length then
    match retentionMaxAge (parts.getD 1 []) with
    | none => false
    | some maxAge => f.modified ≠ 0 ∧ f.modified < now - maxAge
  else false

/-! ## Retry

Embeds the bounded retry loop of the object-store client
(src/internal/storage/s3.go, method execute) together with its error
classification (isRetryable and the retryable method of requestError).
-/

/-- Errors surfaced by one request attempt, mirroring the error taxonomy of
src/internal/storage/s3.go: a requestError carrying the HTTP status of a
non-2xx response, a net.Error with its Timeout and Temporary flags, or any
other error. -/
inductive S3Error where
  | request (statusCode : Nat) (message : Str)
  | network (isTimeout isTemporary : Bool)
  | other
  deriving DecidableEq, Repr

/-- Translation of the retryable method of requestError
(src/internal/storage/s3.go): status 429 or 408, or any status at least 500
other than 501 and 505. -/
def requestRetryable (statusCode : Nat) : Bool :=
  if statusCode = 429 ∨ statusCode = 408 then true
  else 500 ≤ statusCode ∧ statusCode ≠ 501 ∧ statusCode ≠ 505

/-- Translation of isRetryable (src/internal/storage/s3.go): requestError
values defer to their retryable method, net.Error values are retried when
timed out or temporary, and every other error is final. -/
def isRetryable : S3Error → Bool
  | .request statusCode _ => requestRetryable statusCode
  | .network isTimeout isTemporary => isTimeout || isTemporary
  | .other => false

instance : DecidableEq (Except S3Error Unit) := fun a b =>
  match a, b with
  | .ok (), .ok () => .isTrue rfl
  | .ok _, .error _ => .isFalse (by simp)
  | .error _, .ok _ => .isFalse (by simp)
  | .error e, .error e2 =>
    if h : e = e2 then .isTrue (by rw [h]) else .isFalse (by simp [h])

/-- Trace of one call of the execute method: the value it returns, the
sleeps it performs between attempts (in milliseconds, in order), and the
index of the last attempt it ran. -/
structure ExecTrace where
  result : Except S3Error Unit
  sleepsMs : List Nat
  attemptsUsed : Nat
  deriving DecidableEq, Repr

/-- Loop of the execute method (src/internal/storage/s3.go).  The argument
outcome gives the result of each attempt (building the request, performing
it, and classifying the response); attempt is the one-based index of the
current attempt, and left the number of attempts still allowed including
the current one, so that left = 1 exactly when attempt equals the attempt
budget — the condition on which the source breaks instead of retrying.  On
a retryable failure with budget remaining the source sleeps attempt times
500 milliseconds and retries.  The left = 0 case is never reached from
execute, whose budget is clamped to at least one. -/
def executeGo (outcome : Nat → Except S3Error Unit) (attempt : Nat) :
    Nat → ExecTrace
  | 0 => ⟨.error .other, [], attempt⟩
  | left + 1 =>
    match outcome attempt with
    | .ok _ => ⟨.ok (), [], attempt⟩
    | .error e =>
      if isRetryable e = false ∨ left = 0 then ⟨.error e, [], attempt⟩
      else
        let t := executeGo outcome (attempt + 1) left
        ⟨t.result, attempt * 500 :: t.sleepsMs, t.attemptsUsed⟩

/-- Translation of the execute method of the S3 storage
(src/internal/storage/s3.go): the attempt budget is MaxRetries plus one,
clamped below by one, and the loop starts at attempt index 1 with the full
budget left. -/
def execute (maxRetries : Int) (outcome : Nat → Except S3Error Unit) : ExecTrace :=
  executeGo outcome 1 (max (maxRetries + 1) 1).toNat

/-- Modelled from the spec, as amended: an attempt may be retried exactly
when its failure is a transport timeout or temporary network error, an HTTP
429 or 408 status, or a status of at least 500 other than 501 and 505. -/
def specRetryable : S3Error → Bool
  | .request statusCode _ =>
    statusCode = 429 ∨ statusCode = 408 ∨
      (500 ≤ statusCode ∧ statusCode ≠ 501 ∧ statusCode ≠ 505)
  | .network isTimeout isTemporary => isTimeout || isTemporary
  | .other => false

/-! ## Canonical query string and request addressing

Embeds the SigV4 canonicalisation and request construction of the
object-store client (src/internal/s3client/client.go).
-/

/-- UTF-8 encoding of one code point, as a list of byte values.  Matches
the encoding Go uses for string bytes. -/
def utf8Bytes (n : Nat) : List Nat :=
  if n < 128 then [n]
  else if n < 2048 then [192 + n / 64, 128 + n % 64]
  else if n < 65536 then [224 + n / 4096, 128 + n / 64 % 64, 128 + n % 64]
  else [240 + n / 262144, 128 + n / 4096 % 64, 128 + n / 64 % 64, 128 + n % 64]

/-- Bytes of a Go string in the model. -/
def strBytes (s : Str) : List Nat :=
  s.flatMap fun c => utf8Bytes c.toNat

/-- Condition of the first branch of uriEncode
(src/internal/s3client/client.go): ASCII letters, digits, and the four
bytes for the hyphen, underscore, dot and tilde characters pass through
unescaped. -/
def isUnreservedByte (b : Nat) : Bool :=
  (65 ≤ b ∧ b ≤ 90) ∨ (97 ≤ b ∧ b ≤ 122) ∨ (48 ≤ b ∧ b ≤ 57) ∨
    b = 45 ∨ b = 95 ∨ b = 46 ∨ b = 126

/-- Upper-case hexadecimal digit, for percent escapes (Go format %%%02X). -/
def hexDigitChar (n : Nat) : Char :=
  if n < 10 then Char.ofNat (48 + n) else Char.ofNat (55 + n)

/-- Percent escape of one byte, upper-case, two digits. -/
def percentEscape (b : Nat) : Str :=
  ['%', hexDigitChar (b / 16), hexDigitChar (b % 16)]

/-- Translation of uriEncode (src/internal/s3client/client.go): iterates the
bytes of the input, keeps unreserved bytes, keeps the slash when
encodeSlash is false, and percent-escapes everything else in upper case. -/
def uriEncode (input : Str) (encodeSlash : Bool) : Str :=
  (strBytes input).flatMap fun b =>
    if isUnreservedByte b then [Char.ofNat b]
    else if b = 47 ∧ encodeSlash = false then ['/']
    else percentEscape b

/-- Model of the url.Values type of Go: an association of query keys to
their value lists.  A url.Values is a Go map, so its keys are pairwise
distinct; theorems that need that fact take it as a hypothesis. -/
abbrev Values := List (Str × List Str)

/-- Lookup of one key in a Values, modelling Go map indexing. -/
def valuesGet (query : Values) (key : Str) : List Str :=
  ((query.find? fun p => p.1 = key).map Prod.snd).getD []

/-- Key-value pairs of the canonical query string in emission order, before
rendering: the keys sorted, and for each key its values sorted
(canonicalQueryString of src/internal/s3client/client.go sorts a copy of
the value slice). -/
def canonicalPairs (query : Values) : List (Str × Str) :=
  (sortStrings (query.map Prod.fst)).flatMap fun key =>
    (sortStrings (valuesGet query key)).map fun value => (key, value)

/-- Translation of canonicalQueryString (src/internal/s3client/client.go):
each pair is rendered as encoded key, equals sign, encoded value, and the
pairs are joined with ampersands. -/
def canonicalQueryString (query : Values) : Str :=
  List.intercalate ['&']
    ((canonicalPairs query).map fun p => uriEncode p.1 true ++ ['='] ++ uriEncode p.2 true)

/-- Modelled from the spec: the unordered list of query parameters as
key-value pairs, one per value, in input order — what the canonical query
string must arrange. -/
def expandQuery (query : Values) : List (Str × Str) :=
  query.flatMap fun p => p.2.map fun v => (p.1, v)

/-- Strict byte-wise order on Go strings. -/
def strLt (a b : Str) : Prop := strLe a b = true ∧ a ≠ b

/-- Modelled from the spec: the order sorted-by-key-then-by-value in which
the canonical query string must list its parameters. -/
def pairLe (p q : Str × Str) : Prop :=
  strLt p.1 q.1 ∨ (p.1 = q.1 ∧ strLe p.2 q.2 = true)

/-- Translation of hostWithBucket (src/internal/s3client/client.go): when
the endpoint host contains a colon the host is split on colons and the
bucket is joined with the first two fields, otherwise the bucket is
prefixed with a dot. -/
def hostWithBucket (bucket endpointHost : Str) : Str :=
  if endpointHost.contains ':' then
    let parts := splitOnChar ':' endpointHost
    bucket ++ str "." ++ parts.headD [] ++ str ":" ++ parts.getD 1 []
  else bucket ++ str "." ++ endpointHost

/-- Translation of buildCanonicalPath (src/internal/s3client/client.go):
starts with a slash; in path style appends the encoded bucket and, when a
key follows, a slash; then appends the key segments, each encoded without
escaping slashes, joined by slashes. -/
def buildCanonicalPath (forcePathStyle : Bool) (bucket key : Str) : Str :=
  str "/" ++
    (if forcePathStyle then
      uriEncode bucket false ++ (if key ≠ [] then str "/" else [])
    else []) ++
    (if key ≠ [] then
      List.intercalate ['/'] ((splitOnChar '/' key).map fun seg => uriEncode seg false)
    else [])

/-- Host and canonical URI of one signed request. -/
structure RequestTarget where
  host : Str
  canonicalURI : Str
  deriving DecidableEq, Repr

/-- Translation of the addressing part of the newRequest method
(src/internal/s3client/client.go): the key is stripped of one leading
slash; with path style forced the endpoint host is used verbatim and the
bucket becomes the first path segment; otherwise an empty bucket is
rejected, the bucket is folded into the host, and the path holds only the
key. -/
def newRequestTarget (forcePathStyle : Bool) (endpointHost bucket key : Str) :
    Option RequestTarget :=
  let canonicalKey := goTrimLeading key (str "/")
  if forcePathStyle then
    some ⟨endpointHost, buildCanonicalPath true bucket canonicalKey⟩
  else if bucket = [] then none
  else some ⟨hostWithBucket bucket endpointHost, buildCanonicalPath false bucket canonicalKey⟩

/-! ## Paginated listing

Embeds the List method of the object-storage provider
(src/unnamed/part_003), which drives ListObjectsV2 of the client through
continuation tokens.
-/

/-- One object of a parsed ListObjectsV2 response
(src/internal/s3client/client.go): the key, and the last-modified instant,
which the client sets to the zero instant when the RFC3339 field fails to
parse. -/
structure ListedObject where
  key : Str
  modified : Time
  deriving DecidableEq, Repr

/-- One parsed page of a ListObjectsV2 response
(src/internal/s3client/client.go). -/
structure Page where
  objects : List ListedObject
  isTruncated : Bool
  nextToken : Str
  deriving DecidableEq, Repr

/-- Translation of path.Base of the Go standard library, as called by the
List method: the empty path yields a dot, a path of slashes yields a slash,
and otherwise trailing slashes are dropped and the part after the last
remaining slash is returned. -/
def pathBase (p : Str) : Str :=
  if p = [] then str "."
  else
    let r := p.reverse.dropWhile fun c => c = '/'
    if r = [] then str "/"
    else (r.takeWhile fun c => c ≠ '/').reverse

/-- Translation of the List method of the object-storage provider
(src/unnamed/part_003).  The backend is modelled as the sequence of pages
it returns to the successive ListObjectsV2 calls: the loop consumes one
page per iteration, files each object under the base name of its key
(skipping empty names), and continues exactly while the page is truncated
and carries a continuation token.  When the loop requests a page beyond
the given sequence the model returns what was accumulated. -/
def providerList : List Page → List FileInfo
  | [] => []
  | page :: rest =>
    let files := page.objects.filterMap fun o =>
      if pathBase o.key = [] then none
      else some ⟨pathBase o.key, o.modified⟩
    if page.isTruncated && page.nextToken ≠ [] then files ++ providerList rest
    else files

/-! ## Local save

Embeds the Save method of the local provider and its copyFile helper
(src/unnamed/part_002).
-/

/-- Outcome of the io.Copy call inside copyFile: full success, or a failure
after writing a given number of bytes of the source. -/
inductive CopyOutcome where
  | success
  | failAfter (n : Nat)
  deriving DecidableEq, Repr

/-- Outcomes of the fallible filesystem calls one Save invocation makes:
whether MkdirAll succeeds, whether the rename succeeds, what the copy does,
whether the sync succeeds, and whether removing the source succeeds. -/
structure SaveScenario where
  mkdirOk : Bool
  renameOk : Bool
  copyOutcome : CopyOutcome
  syncOk : Bool
  removeOk : Bool
  deriving DecidableEq, Repr

/-- Result of one Save invocation: whether an error was returned, and the
content visible at the final destination name afterwards (none when no file
exists there; the payload is the byte list written).  The destination is
assumed absent beforehand, as for a fresh backup name. -/
structure SaveResult where
  failed : Bool
  destContent : Option (List Nat)
  deriving DecidableEq, Repr

/-- Translation of the Save method of the local provider and of copyFile
(src/unnamed/part_002).  Save renames the staged file onto the destination
path; when the rename fails it calls copyFile, which creates the
destination (truncating it), copies the source into it, and syncs it; on
copy success Save removes the source.  Neither Save nor copyFile removes
the destination file when the copy or the sync fails. -/
def localSave (source : List Nat) (sc : SaveScenario) : SaveResult :=
  if sc.mkdirOk = false then ⟨true, none⟩
  else if sc.renameOk then ⟨false, some source⟩
  else
    match sc.copyOutcome with
    | .failAfter n => ⟨true, some (source.take n)⟩
    | .success =>
      if sc.syncOk = false then ⟨true, some source⟩
      else if sc.removeOk = false then ⟨true, some source⟩
      else ⟨false, some source⟩

/-! ## Fetch

Embeds the Fetch method of the object-storage provider
(src/unnamed/part_003).
-/

/-- Outcomes of the fallible calls one Fetch invocation makes: the GET
download, the temporary-file creation, the copy of the body, the sync, and
the close. -/
structure FetchScenario where
  getOk : Bool
  createOk : Bool
  copyOk : Bool
  syncOk : Bool
  closeOk : Bool
  deriving DecidableEq, Repr

/-- Observable filesystem events of one Fetch invocation, on the temporary
file it manages. -/
inductive FetchEvent where
  | created (path : Str)
  | wrote (path : Str)
  | synced (path : Str)
  | closed (path : Str)
  | removed (path : Str)
  deriving DecidableEq, Repr

/-- Result of one Fetch invocation: on success the returned local path
together with the events running the returned release function performs,
and on failure none; plus the events Fetch itself performed before
returning. -/
structure FetchResult where
  returned : Option (Str × List FetchEvent)
  events : List FetchEvent
  deriving DecidableEq, Repr

/-- Translation of the Fetch method of the object-storage provider
(src/unnamed/part_003): downloads the object, creates a temporary file,
copies the body into it, syncs and closes it, and only then returns its
path together with a release function that removes it; on a copy, sync or
close failure the temporary file is removed before the error is
returned. -/
def s3Fetch (sc : FetchScenario) (tmpName : Str) : FetchResult :=
  if sc.getOk = false then ⟨none, []⟩
  else if sc.createOk = false then ⟨none, []⟩
  else if sc.copyOk = false then
    ⟨none, [.created tmpName, .closed tmpName, .removed tmpName]⟩
  else if sc.syncOk = false then
    ⟨none, [.created tmpName, .wrote tmpName, .closed tmpName, .removed tmpName]⟩
  else if sc.closeOk = false then
    ⟨none, [.created tmpName, .wrote tmpName, .synced tmpName, .removed tmpName]⟩
  else
    ⟨some (tmpName, [.removed tmpName]),
      [.created tmpName, .wrote tmpName, .synced tmpName, .closed tmpName]⟩

/-! ## Theorems: retention -/

/-- Characterisation of the shared Cleanup loop: it attempts to delete
exactly the artifacts the amended retention rule selects, in listing
order. -/
theorem cleanupGo_eq_filter (now : Time) (del : Str → Bool) (files : List FileInfo) :
    cleanupGo (now + (-(7 * 24 * 3600))) (now + (-(30 * 24 * 3600)))
      (now + (-(365 * 24 * 3600))) (now + (-(365 * 24 * 3600))) del files
      = (files.filter (specEvicts now)).map FileInfo.name := by
  induction files with
  | nil => rfl
  | cons f rest ih =>
    by_cases h2 : (splitOnChar '_' f.name).length < 2
    · have h2' : ¬ 2 ≤ (splitOnChar '_' f.name).length := by omega
      have hs : specEvicts now f = false := by
        simp [specEvicts, h2']
      simp only [cleanupGo, h2, if_pos, List.filter_cons, hs, Bool.false_eq_true,
        if_false, ih]
    · have h2' : 2 ≤ (splitOnChar '_' f.name).length := by omega
      have hstep : cleanupGo (now + (-(7 * 24 * 3600))) (now + (-(30 * 24 * 3600)))
          (now + (-(365 * 24 * 3600))) (now + (-(365 * 24 * 3600))) del (f :: rest)
          = (if specEvicts now f then
              f.name :: cleanupGo (now + (-(7 * 24 * 3600))) (now + (-(30 * 24 * 3600)))
                (now + (-(365 * 24 * 3600))) (now + (-(365 * 24 * 3600))) del rest
            else cleanupGo (now + (-(7 * 24 * 3600))) (now + (-(30 * 24 * 3600)))
              (now + (-(365 * 24 * 3600))) (now + (-(365 * 24 * 3600))) del rest) := by
        simp only [cleanupGo, h2, if_neg, ite_false, specEvicts, h2', ite_true, if_pos,
          retentionMaxAge]
        by_cases hd : (splitOnChar '_' f.name).getD 1 [] = str "daily"
        · simp only [hd, if_pos, ite_true]
          rw [show now - 7 * 24 * 3600 = now + (-(7 * 24 * 3600)) from rfl]
          by_cases hm : f.modified ≠ 0 ∧ f.modified < now + (-(7 * 24 * 3600))
          · simp [hm]
          · simp [hm]
        · by_cases hw : (splitOnChar '_' f.name).getD 1 [] = str "weekly"
          · have nwd : ¬ (str "weekly" = str "daily") := by decide
            simp only [hw, nwd, ite_true, ite_false, if_neg, if_pos]
            rw [show now - 30 * 24 * 3600 = now + (-(30 * 24 * 3600)) from rfl]
            by_cases hm : f.modified ≠ 0 ∧ f.modified < now + (-(30 * 24 * 3600))
            · simp [hm]
            · simp [hm]
          · by_cases hmo : (splitOnChar '_' f.name).getD 1 [] = str "monthly"
            · have nmd : ¬ (str "monthly" = str "daily") := by decide
              have nmw : ¬ (str "monthly" = str "weekly") := by decide
              simp only [hmo, nmd, nmw, ite_true, ite_false, if_neg, if_pos]
              rw [show now - 365 * 24 * 3600 = now + (-(365 * 24 * 3600)) from rfl]
              by_cases hm : f.modified ≠ 0 ∧ f.modified < now + (-(365 * 24 * 3600))
              · simp [hm]
              · simp [hm]
            · by_cases hma : (splitOnChar '_' f.name).getD 1 [] = str "manual"
              · have nad : ¬ (str "manual" = str "daily") := by decide
                have naw : ¬ (str "manual" = str "weekly") := by decide
                have nam : ¬ (str "manual" = str "monthly") := by decide
                simp only [hma, nad, naw, nam, ite_true, ite_false, if_neg, if_pos]
                rw [show now - 365 * 24 * 3600 = now + (-(365 * 24 * 3600)) from rfl]
                by_cases hm : f.modified ≠ 0 ∧ f.modified < now + (-(365 * 24 * 3600))
                · simp [hm]
                · simp [hm]
              · simp only [if_neg hd, if_neg hw, if_neg hmo, if_neg hma]
                simp
      rw [hstep, List.filter_cons]
      by_cases hs : specEvicts now f = true
      · simp only [hs, ite_true, if_pos, ih, List.map_cons]
      · simp only [Bool.not_eq_true] at hs
        simp only [hs, Bool.false_eq_true, ite_false, if_neg, ih]

/-- Restatement of the characterisation through the Cleanup entry point. -/
theorem Cleanup_eq_filter (files : List FileInfo) (now : Time) (del : Str → Bool) :
    Cleanup files now del = (files.filter (specEvicts now)).map FileInfo.name :=
  cleanupGo_eq_filter now del files

/-- C1, amended: a pass of the shared Cleanup attempts to delete exactly the
listed artifacts whose classification token (the second underscore-delimited
field of the name) is one of daily, weekly, monthly, manual — with maximum
ages of 7, 30, 365 and 365 days — whose last-modified instant is not the
zero instant, and which are strictly older than the maximum age allows; the
historical shouldRemove variant used by the object-store cleanup never
evicts manual artifacts. -/
theorem claim_C1_retention_rule (files : List FileInfo) (now : Time) (del : Str → Bool) :
    Cleanup files now del = (files.filter (specEvicts now)).map FileInfo.name ∧
      ∀ modifiedAt t : Time, shouldRemove (str "manual") modifiedAt t = false := by
  refine ⟨Cleanup_eq_filter files now del, fun modifiedAt t => ?_⟩
  unfold shouldRemove
  rw [if_neg (by decide), if_neg (by decide), if_neg (by decide)]

/-- C1 counterexample: the claim states that a manual artifact modified more
than 365 days before now is deleted by a retention cleanup pass, yet the
object-store cleanup of the historical S3 storage attempts no deletion on a
manual artifact 366 days old, because shouldRemove has no manual case. -/
theorem claim_C1_counterexample :
    (s3CleanupGo [] (367 * 24 * 3600) (fun _ => true)
        [⟨str "file_manual_x.dump", some (24 * 3600)⟩]).attempts = [] ∧
      ((24 * 3600 : Int) < 367 * 24 * 3600 - 365 * 24 * 3600) := by
  exact ⟨by decide, by decide⟩

/-- C2, amended: in the shared Cleanup the outcome of each delete is
discarded, so the pass behaves exactly as when every delete succeeds, and
every listed artifact selected by the retention rule has its deletion
attempted no matter which deletes fail; the historical S3 storage cleanup
instead aborts the pass on the first failed delete. -/
theorem claim_C2_best_effort (files : List FileInfo) (now : Time) (del : Str → Bool) :
    Cleanup files now del = Cleanup files now (fun _ => true) ∧
      ∀ f ∈ files, specEvicts now f = true → f.name ∈ Cleanup files now del := by
  constructor
  · rw [Cleanup_eq_filter, Cleanup_eq_filter]
  · intro f hf hev
    rw [Cleanup_eq_filter]
    exact List.mem_map_of_mem _ (List.mem_filter.mpr ⟨hf, hev⟩)

/-- C2 witness: the amended statement applied to a concrete pass in which
the single delete fails. -/
theorem claim_C2_witness :
    Cleanup [⟨str "file_daily_a.dump", 24 * 3600⟩] (100 * 24 * 3600) (fun _ => false)
        = Cleanup [⟨str "file_daily_a.dump", 24 * 3600⟩] (100 * 24 * 3600)
            (fun _ => true) ∧
      ∀ f ∈ [(⟨str "file_daily_a.dump", 24 * 3600⟩ : FileInfo)],
        specEvicts (100 * 24 * 3600) f = true →
          f.name ∈ Cleanup [⟨str "file_daily_a.dump", 24 * 3600⟩] (100 * 24 * 3600)
            (fun _ => false) :=
  claim_C2_best_effort _ _ _

/-- C2 counterexample: in the historical S3 storage cleanup, when the delete
of the first eligible artifact fails, the pass aborts and the second
artifact — equally eligible, as the shouldRemove conjunct shows — is never
evaluated. -/
theorem claim_C2_counterexample :
    s3CleanupGo [] (100 * 24 * 3600) (fun _ => false)
        [⟨str "file_daily_a.dump", some (24 * 3600)⟩,
          ⟨str "file_daily_b.dump", some (24 * 3600)⟩]
      = ⟨[str "file_daily_a.dump"], some (str "file_daily_a.dump")⟩ ∧
      shouldRemove (str "daily") (24 * 3600) (100 * 24 * 3600) = true := by
  exact ⟨by decide, by decide⟩

/-- C7: an artifact whose classification token is not one of daily, weekly,
monthly, manual is never deleted: no shared Cleanup pass attempts its name,
and the historical shouldRemove variant also rejects its token. -/
theorem claim_C7_unknown_class (files : List FileInfo) (now : Time) (del : Str → Bool)
    (n : Str)
    (hc : (splitOnChar '_' n).getD 1 [] ∉
      [str "daily", str "weekly", str "monthly", str "manual"]) :
    n ∉ Cleanup files now del ∧
      ∀ modifiedAt t : Time,
        shouldRemove ((splitOnChar '_' n).getD 1 []) modifiedAt t = false := by
  simp only [List.mem_cons, List.not_mem_nil, or_false, not_or] at hc
  obtain ⟨hcd, hcw, hcm, hca⟩ := hc
  have hmax : retentionMaxAge ((splitOnChar '_' n).getD 1 []) = none := by
    unfold retentionMaxAge
    rw [if_neg hcd, if_neg hcw, if_neg hcm, if_neg hca]
  constructor
  · intro hmem
    rw [Cleanup_eq_filter] at hmem
    obtain ⟨f, hfmem, hname⟩ := List.mem_map.mp hmem
    have hfil := List.mem_filter.mp hfmem
    have : specEvicts now f = false := by
      unfold specEvicts
      rw [hname]
      by_cases h2 : 2 ≤ (splitOnChar '_' n).length
      · simp only [List.getD_eq_getElem?_getD] at hmax
        simp [h2, hmax]
      · simp [h2]
    rw [this] at hfil
    exact absurd hfil.2 (by simp)
  · intro modifiedAt t
    unfold shouldRemove
    rw [if_neg hcd, if_neg hcw, if_neg hcm]

/-- C7 witness: a concrete pass over an artifact with the unrecognised
classification adhoc, which survives. -/
theorem claim_C7_witness :
    str "file_adhoc_x.dump" ∉
        Cleanup [⟨str "file_adhoc_x.dump", 24 * 3600⟩] (1000 * 24 * 3600)
          (fun _ => true) ∧
      ∀ modifiedAt t : Time,
        shouldRemove ((splitOnChar '_' (str "file_adhoc_x.dump")).getD 1 [])
          modifiedAt t = false :=
  claim_C7_unknown_class _ _ _ _ (by decide)

/-- C9: an artifact whose reported last-modified instant is the zero time is
never deleted by the shared Cleanup: a pass over it alone deletes nothing,
and every name a pass attempts belongs to a listed artifact whose
last-modified instant is not zero. -/
theorem claim_C9_zero_time (files : List FileInfo) (now : Time) (del : Str → Bool) :
    (∀ f : FileInfo, f.modified = 0 → Cleanup [f] now del = []) ∧
      ∀ n ∈ Cleanup files now del, ∃ f ∈ files, f.name = n ∧ f.modified ≠ 0 := by
  have hzero : ∀ f : FileInfo, f.modified = 0 → specEvicts now f = false := by
    intro f hf
    unfold specEvicts
    by_cases h2 : 2 ≤ (splitOnChar '_' f.name).length
    · cases hmax : retentionMaxAge ((splitOnChar '_' f.name)[1]?.getD []) with
      | none => simp [h2, hmax]
      | some maxAge => simp [h2, hmax, hf]
    · simp [h2]
  constructor
  · intro f hf
    rw [Cleanup_eq_filter]
    simp [List.filter_cons, hzero f hf]
  · intro n hn
    rw [Cleanup_eq_filter] at hn
    obtain ⟨f, hfmem, hname⟩ := List.mem_map.mp hn
    have hfil := List.mem_filter.mp hfmem
    refine ⟨f, hfil.1, hname, fun h0 => ?_⟩
    rw [hzero f h0] at hfil
    exact absurd hfil.2 (by simp)

/-- C9 witness: a concrete pass over a single zero-time daily artifact
attempts no deletion, even though now exceeds the daily cutoff by far. -/
theorem claim_C9_witness :
    Cleanup [(⟨str "file_daily_a.dump", 0⟩ : FileInfo)] (1000 * 24 * 3600)
      (fun _ => true) = [] :=
  (claim_C9_zero_time [] (1000 * 24 * 3600) (fun _ => true)).1 _ rfl

/-! ## Theorems: retry -/

/-- Characterisation of the retry loop: the attempt count stays within the
budget, every non-final attempt failed retryably, the sleeps follow the
linear backoff, and the surfaced result is the outcome of the final
attempt. -/
theorem executeGo_spec (outcome : Nat → Except S3Error Unit) :
    ∀ left attempt, 1 ≤ left →
      attempt ≤ (executeGo outcome attempt left).attemptsUsed ∧
      (executeGo outcome attempt left).attemptsUsed + 1 ≤ attempt + left ∧
      (∀ k, attempt ≤ k → k < (executeGo outcome attempt left).attemptsUsed →
        ∃ e, outcome k = .error e ∧ isRetryable e = true) ∧
      (executeGo outcome attempt left).sleepsMs =
        (List.range ((executeGo outcome attempt left).attemptsUsed - attempt)).map
          (fun i => (attempt + i) * 500) ∧
      (∀ e, (executeGo outcome attempt left).result = .error e →
        outcome (executeGo outcome attempt left).attemptsUsed = .error e ∧
          (isRetryable e = false ∨
            (executeGo outcome attempt left).attemptsUsed + 1 = attempt + left)) ∧
      ((executeGo outcome attempt left).result = .ok () →
        outcome (executeGo outcome attempt left).attemptsUsed = .ok ()) := by
  intro left
  induction left with
  | zero => intro attempt h1; omega
  | succ left ih =>
    intro attempt _
    show _ ∧ _
    rw [executeGo]
    cases hout : outcome attempt with
    | ok u =>
      cases u
      dsimp only
      refine ⟨Nat.le_refl _, by omega, ?_, by simp, ?_, ?_⟩
      · intro k hk1 hk2
        exact absurd hk2 (by omega)
      · intro e he
        exact absurd he (by simp)
      · intro _
        exact hout
    | error e0 =>
      dsimp only
      by_cases hbr : isRetryable e0 = false ∨ left = 0
      · rw [if_pos hbr]
        dsimp only
        refine ⟨Nat.le_refl _, by omega, ?_, by simp, ?_, ?_⟩
        · intro k hk1 hk2
          exact absurd hk2 (by omega)
        · intro e he
          have he' : e0 = e := by
            simpa using he
          subst he'
          refine ⟨hout, ?_⟩
          rcases hbr with hbr | hbr
          · exact Or.inl hbr
          · exact Or.inr (by omega)
        · intro he
          exact absurd he (by simp)
      · rw [if_neg hbr]
        push_neg at hbr
        obtain ⟨hr, hlz⟩ := hbr
        have hr' : isRetryable e0 = true := by
          simpa using hr
        have ihs := ih (attempt + 1) (by omega)
        obtain ⟨ih1, ih2, ih3, ih4, ih5, ih6⟩ := ihs
        dsimp only
        refine ⟨by omega, by omega, ?_, ?_, ?_, ?_⟩
        · intro k hk1 hk2
          by_cases hk : k = attempt
          · subst hk
            exact ⟨e0, hout, hr'⟩
          · exact ih3 k (by omega) hk2
        · rw [ih4]
          rw [show (executeGo outcome (attempt + 1) left).attemptsUsed - attempt
              = ((executeGo outcome (attempt + 1) left).attemptsUsed - (attempt + 1)) + 1
            from by omega]
          rw [List.range_succ_eq_map]
          simp only [List.map_cons, List.map_map, Nat.add_zero, Function.comp,
            Nat.succ_eq_add_one]
          refine congrArg (fun l => attempt * 500 :: l) ?_
          refine List.map_congr_left ?_
          intro i _
          simp only [Function.comp_apply, Nat.succ_eq_add_one]
          ring
        · intro e he
          obtain ⟨h5a, h5b⟩ := ih5 e he
          refine ⟨h5a, ?_⟩
          rcases h5b with h | h
          · exact Or.inl h
          · exact Or.inr (by omega)
        · intro he
          exact ih6 he

/-- C3, amended: a failed attempt of the object-store execute loop is
retried only when the failure is a transport timeout or temporary network
error, an HTTP 429 or 408 status, or a status of at least 500 other than
501 and 505 (the source places no upper bound at 599); at most the
configured budget of MaxRetries plus one attempts is used, with a single
attempt when no retries are configured; the sleep before each retry is the
attempt index times 500 milliseconds; and the surfaced result is that of
the final attempt, in particular the last error when every attempt
failed. -/
theorem claim_C3_retry (maxRetries : Int) (outcome : Nat → Except S3Error Unit) :
    (∀ e, isRetryable e = specRetryable e) ∧
      1 ≤ (execute maxRetries outcome).attemptsUsed ∧
      (execute maxRetries outcome).attemptsUsed ≤ (max (maxRetries + 1) 1).toNat ∧
      (maxRetries ≤ 0 → (execute maxRetries outcome).attemptsUsed = 1) ∧
      (∀ k, 1 ≤ k → k < (execute maxRetries outcome).attemptsUsed →
        ∃ e, outcome k = .error e ∧ isRetryable e = true) ∧
      (execute maxRetries outcome).sleepsMs =
        (List.range ((execute maxRetries outcome).attemptsUsed - 1)).map
          (fun i => (1 + i) * 500) ∧
      (∀ e, (execute maxRetries outcome).result = .error e →
        outcome (execute maxRetries outcome).attemptsUsed = .error e) ∧
      ((execute maxRetries outcome).result = .ok () →
        outcome (execute maxRetries outcome).attemptsUsed = .ok ()) := by
  unfold execute
  have hb : 1 ≤ (max (maxRetries + 1) 1).toNat := by
    have h1 : (1 : Int) ≤ max (maxRetries + 1) 1 := le_max_right _ _
    omega
  have hs := executeGo_spec outcome (max (maxRetries + 1) 1).toNat 1 hb
  obtain ⟨h1, h2, h3, h4, h5, h6⟩ := hs
  refine ⟨?_, h1, by omega, ?_, h3, h4, ?_, h6⟩
  · intro e
    cases e with
    | request statusCode message =>
      show requestRetryable statusCode = _
      unfold requestRetryable specRetryable
      by_cases h48 : statusCode = 429 ∨ statusCode = 408
      · simp only [h48, if_pos, ite_true]
        rcases h48 with h | h <;> simp [h]
      · simp only [h48, if_neg, ite_false]
        push_neg at h48
        simp [h48.1, h48.2]
    | network isTimeout isTemporary => rfl
    | other => rfl
  · intro hneg
    have hmax : max (maxRetries + 1) 1 = 1 := max_eq_right (by omega)
    rw [hmax] at h1 h2 ⊢
    omega
  · intro e he
    exact (h5 e he).1

/-- C3 witness: the amended statement applied at a concrete budget of three
attempts against an outcome that always fails with status 503, checking the
attempt count and the linear backoff of the sleeps. -/
theorem claim_C3_witness :
    1 ≤ (execute 2 fun _ => Except.error (S3Error.request 503 [])).attemptsUsed ∧
      (execute 2 fun _ => Except.error (S3Error.request 503 [])).sleepsMs =
        (List.range
            ((execute 2 fun _ => Except.error (S3Error.request 503 [])).attemptsUsed - 1)).map
          (fun i => (1 + i) * 500) :=
  ⟨(claim_C3_retry 2 _).2.1, (claim_C3_retry 2 _).2.2.2.2.2.1⟩

/-- C3 counterexample: the claim limits status-based retries to 5xx codes,
but a failure with status 600 — outside the 500 to 599 range — is retried:
with a budget of two attempts the loop sleeps once, as the trace shows. -/
theorem claim_C3_counterexample :
    (execute 1 fun _ => .error (.request 600 [])).sleepsMs = [500] ∧
      ¬ (600 ≤ 599) := by
  exact ⟨by decide, by decide⟩

/-! ## Theorems: canonical query string -/

/-- Injectivity of the code point of a character. -/
theorem charToNat_inj {a b : Char} (h : a.toNat = b.toNat) : a = b :=
  Char.eq_of_val_eq (UInt32.eq_of_toBitVec_eq (BitVec.eq_of_toNat_eq h))

/-- Head characterisation of the string order. -/
theorem strLe_cons_iff (x y : Char) (xs ys : Str) :
    strLe (x :: xs) (y :: ys) = true ↔
      x.toNat < y.toNat ∨ (x.toNat = y.toNat ∧ strLe xs ys = true) := by
  by_cases h1 : x.toNat < y.toNat
  · simp [strLe, h1]
  · by_cases h2 : y.toNat < x.toNat
    · have hne : ¬ x.toNat = y.toNat := by omega
      simp [strLe, h1, h2, hne]
    · have heq : x.toNat = y.toNat := by omega
      simp [strLe, h1, h2, heq]

/-- Totality of the string order. -/
theorem strLe_total (a : Str) : ∀ b, strLe a b = true ∨ strLe b a = true := by
  induction a with
  | nil => intro b; exact Or.inl rfl
  | cons x xs ih =>
    intro b
    cases b with
    | nil => exact Or.inr rfl
    | cons y ys =>
      rw [strLe_cons_iff, strLe_cons_iff]
      by_cases hxy : x.toNat < y.toNat
      · exact Or.inl (Or.inl hxy)
      · by_cases hyx : y.toNat < x.toNat
        · exact Or.inr (Or.inl hyx)
        · rcases ih ys with h | h
          · exact Or.inl (Or.inr ⟨by omega, h⟩)
          · exact Or.inr (Or.inr ⟨by omega, h⟩)

/-- Transitivity of the string order. -/
theorem strLe_trans : ∀ {a b c : Str}, strLe a b = true → strLe b c = true →
    strLe a c = true := by
  intro a
  induction a with
  | nil => intro b c _ _; rfl
  | cons x xs ih =>
    intro b c hab hbc
    cases b with
    | nil => simp [strLe] at hab
    | cons y ys =>
      cases c with
      | nil => simp [strLe] at hbc
      | cons z zs =>
        rw [strLe_cons_iff] at hab hbc ⊢
        rcases hab with h1 | ⟨h1, h1s⟩ <;> rcases hbc with h2 | ⟨h2, h2s⟩
        · exact Or.inl (by omega)
        · exact Or.inl (by omega)
        · exact Or.inl (by omega)
        · exact Or.inr ⟨by omega, ih h1s h2s⟩

/-- Antisymmetry of the string order. -/
theorem strLe_antisymm : ∀ {a b : Str}, strLe a b = true → strLe b a = true →
    a = b := by
  intro a
  induction a with
  | nil =>
    intro b h1 h2
    cases b with
    | nil => rfl
    | cons y ys => simp [strLe] at h2
  | cons x xs ih =>
    intro b h1 h2
    cases b with
    | nil => simp [strLe] at h1
    | cons y ys =>
      rw [strLe_cons_iff] at h1 h2
      rcases h1 with h1 | ⟨h1, h1s⟩ <;> rcases h2 with h2 | ⟨h2, h2s⟩
      · omega
      · omega
      · omega
      · rw [charToNat_inj h1, ih h1s h2s]

/-- Inserting into the model of sort.Strings produces a permutation. -/
theorem insertStr_perm (x : Str) (l : List Str) : (insertStr x l).Perm (x :: l) := by
  induction l with
  | nil => exact List.Perm.refl _
  | cons y ys ih =>
    unfold insertStr
    by_cases h : strLe x y = true
    · simp only [h, ite_true, if_pos]
      exact List.Perm.refl _
    · simp only [h, ite_false, if_neg, Bool.false_eq_true]
      exact (ih.cons y).trans (List.Perm.swap x y ys)

/-- Inserting into a sorted list keeps it sorted. -/
theorem insertStr_sorted (x : Str) (l : List Str)
    (hl : l.Pairwise fun a b => strLe a b = true) :
    (insertStr x l).Pairwise fun a b => strLe a b = true := by
  induction l with
  | nil => simp [insertStr]
  | cons y ys ih =>
    rcases List.pairwise_cons.mp hl with ⟨hy, hys⟩
    unfold insertStr
    by_cases h : strLe x y = true
    · simp only [h, ite_true, if_pos]
      refine List.pairwise_cons.mpr ⟨?_, hl⟩
      intro b hb
      rcases List.mem_cons.mp hb with rfl | hb'
      · exact h
      · exact strLe_trans h (hy b hb')
    · simp only [h, ite_false, if_neg, Bool.false_eq_true]
      refine List.pairwise_cons.mpr ⟨?_, ih hys⟩
      intro b hb
      have hmem : b ∈ x :: ys := (insertStr_perm x ys).subset hb
      rcases List.mem_cons.mp hmem with rfl | hb'
      · rcases strLe_total y b with ht | ht
        · exact ht
        · exact absurd ht h
      · exact hy b hb'

/-- The model of sort.Strings permutes its input. -/
theorem sortStrings_perm (l : List Str) : (sortStrings l).Perm l := by
  induction l with
  | nil => exact List.Perm.refl _
  | cons x xs ih => exact (insertStr_perm x (sortStrings xs)).trans (ih.cons x)

/-- The model of sort.Strings sorts its input. -/
theorem sortStrings_sorted (l : List Str) :
    (sortStrings l).Pairwise fun a b => strLe a b = true := by
  induction l with
  | nil => simp [sortStrings]
  | cons x xs ih => exact insertStr_sorted x _ ih

/-- A sorted list without duplicates is strictly sorted. -/
theorem sorted_nodup_strLt {l : List Str}
    (hs : l.Pairwise fun a b => strLe a b = true) (hn : l.Nodup) :
    l.Pairwise strLt :=
  (hs.and hn).imp fun h => ⟨h.1, h.2⟩

/-- Looking up the key of the head binding. -/
theorem valuesGet_cons_self (p : Str × List Str) (rest : Values) :
    valuesGet (p :: rest) p.1 = p.2 := by
  unfold valuesGet
  rw [List.find?_cons_of_pos _ (by simp)]
  rfl

/-- Looking up a key different from the head binding. -/
theorem valuesGet_cons_ne (p : Str × List Str) (rest : Values) (k : Str)
    (h : ¬ p.1 = k) : valuesGet (p :: rest) k = valuesGet rest k := by
  unfold valuesGet
  rw [List.find?_cons_of_neg _ (by simp [h])]

/-- Flat maps agree when the functions agree on the members. -/
theorem flatMap_congr_mem {α β : Type} {l : List α} {f g : α → List β}
    (h : ∀ a ∈ l, f a = g a) : l.flatMap f = l.flatMap g := by
  induction l with
  | nil => rfl
  | cons x xs ih =>
    rw [List.flatMap_cons, List.flatMap_cons, h x (List.mem_cons_self x xs),
      ih fun a ha => h a (List.mem_cons_of_mem _ ha)]

/-- The canonical pairs are a permutation of the query parameters. -/
theorem canonicalPairs_perm (query : Values)
    (hkeys : (query.map Prod.fst).Nodup) :
    (canonicalPairs query).Perm (expandQuery query) := by
  unfold canonicalPairs
  refine (List.Perm.flatMap_right _ (sortStrings_perm _)).trans ?_
  revert hkeys
  induction query with
  | nil =>
    intro _
    simp [expandQuery]
  | cons p rest ih =>
    intro hkeys
    rw [List.map_cons] at hkeys
    rcases List.nodup_cons.mp hkeys with ⟨hp, hrest⟩
    simp only [List.map_cons, List.flatMap_cons, expandQuery]
    rw [valuesGet_cons_self]
    have htail : ((rest.map Prod.fst).flatMap fun key =>
        (sortStrings (valuesGet (p :: rest) key)).map fun value => (key, value))
        = ((rest.map Prod.fst).flatMap fun key =>
            (sortStrings (valuesGet rest key)).map fun value => (key, value)) := by
      refine flatMap_congr_mem ?_
      intro k hk
      rw [valuesGet_cons_ne]
      exact fun he => hp (he ▸ hk)
    rw [htail]
    exact List.Perm.append (List.Perm.map _ (sortStrings_perm p.2)) (ih hrest)

/-- The canonical pairs are sorted by key and then by value. -/
theorem canonicalPairs_sorted (query : Values)
    (hkeys : (query.map Prod.fst).Nodup) :
    (canonicalPairs query).Pairwise pairLe := by
  unfold canonicalPairs
  have hstrict : (sortStrings (query.map Prod.fst)).Pairwise strLt :=
    sorted_nodup_strLt (sortStrings_sorted _)
      (((sortStrings_perm _).nodup_iff).mpr hkeys)
  generalize sortStrings (query.map Prod.fst) = ks at hstrict
  revert hstrict
  induction ks with
  | nil =>
    intro _
    simp
  | cons k ks ih =>
    intro hstrict
    rcases List.pairwise_cons.mp hstrict with ⟨hk, hks⟩
    rw [List.flatMap_cons, List.pairwise_append]
    refine ⟨?_, ih hks, ?_⟩
    · refine List.Pairwise.map _ ?_ (sortStrings_sorted (valuesGet query k))
      intro a b hab
      exact Or.inr ⟨rfl, hab⟩
    · intro a ha b hb
      obtain ⟨va, hva, rfl⟩ := List.mem_map.mp ha
      obtain ⟨k2, hk2, hbk⟩ := List.mem_flatMap.mp hb
      obtain ⟨vb, hvb, rfl⟩ := List.mem_map.mp hbk
      exact Or.inl (hk k2 hk2)

/-- C4: the canonical query string lists the parameters sorted by key and
then by value — its pair list is a permutation of the query parameters and
is sorted in the key-then-value order — with each key and value encoded by
uriEncode, which encodes the space as a percent escape (never a plus), the
asterisk as a percent escape, and leaves the tilde unescaped. -/
theorem claim_C4_canonical_query (query : Values)
    (hkeys : (query.map Prod.fst).Nodup) :
    (canonicalPairs query).Perm (expandQuery query) ∧
      (canonicalPairs query).Pairwise pairLe ∧
      canonicalQueryString query = List.intercalate ['&']
        ((canonicalPairs query).map fun p =>
          uriEncode p.1 true ++ ['='] ++ uriEncode p.2 true) ∧
      uriEncode (str " ") true = str "%20" ∧
      uriEncode (str "*") true = str "%2A" ∧
      uriEncode (str "~") true = str "~" ∧
      uriEncode (str "+") true = str "%2B" :=
  ⟨canonicalPairs_perm query hkeys, canonicalPairs_sorted query hkeys, rfl,
    by decide, by decide, by decide, by decide⟩

/-- C4 witness: the statement applied to a concrete two-key query with an
unsorted value list and a value containing a space. -/
theorem claim_C4_witness :
    (canonicalPairs [(str "b", [str "y", str "x"]), (str "a", [str "w z"])]).Perm
        (expandQuery [(str "b", [str "y", str "x"]), (str "a", [str "w z"])]) ∧
      (canonicalPairs
        [(str "b", [str "y", str "x"]), (str "a", [str "w z"])]).Pairwise pairLe :=
  ⟨(claim_C4_canonical_query _ (by decide)).1,
    (claim_C4_canonical_query _ (by decide)).2.1⟩

/-! ## Theorems: request addressing -/

/-- Splitting a string free of the separator yields the string itself. -/
theorem splitOnChar_not_mem {sep : Char} : ∀ {l : Str}, sep ∉ l →
    splitOnChar sep l = [l] := by
  intro l
  induction l with
  | nil => intro _; rfl
  | cons c cs ih =>
    intro h
    have hc : ¬ c = sep := fun he => h (he ▸ List.mem_cons_self c cs)
    have hcs : sep ∉ cs := fun hm => h (List.mem_cons_of_mem c hm)
    simp only [splitOnChar, hc, ite_false, if_neg, ih hcs]
    rfl

/-- Splitting around the first separator occurrence. -/
theorem splitOnChar_append_sep {sep : Char} : ∀ {a : Str} (c : Str), sep ∉ a →
    splitOnChar sep (a ++ sep :: c) = a :: splitOnChar sep c := by
  intro a
  induction a with
  | nil =>
    intro c _
    simp [splitOnChar]
  | cons x xs ih =>
    intro c h
    have hx : ¬ x = sep := fun he => h (he ▸ List.mem_cons_self x xs)
    have hxs : sep ∉ xs := fun hm => h (List.mem_cons_of_mem x hm)
    simp only [List.cons_append, splitOnChar, hx, ite_false, if_neg, List.append_eq]
    rw [ih c hxs]
    rfl

/-- Contains is false exactly for non-members. -/
theorem contains_eq_false_of_not_mem {l : Str} {a : Char} (h : a ∉ l) :
    l.contains a = false := by
  cases hc : l.contains a with
  | false => rfl
  | true =>
    unfold List.contains at hc
    exact absurd (List.mem_of_elem_eq_true hc) h

/-- C5, amended: with force-path-style enabled the request host is the
configured endpoint host verbatim and the canonical path starts with the
encoded bucket as its first segment; with it disabled an empty bucket is
rejected, the path is exactly the key path — independent of the bucket —
and the host is the bucket prefixed with a dot to the endpoint host
whenever the endpoint host contains at most one colon; an endpoint host
with two or more colons (an IPv6 literal) is instead truncated to its
first two colon-separated fields, so the prefix claim fails there. -/
theorem claim_C5_addressing :
    (∀ endpointHost bucket key t,
        newRequestTarget true endpointHost bucket key = some t →
          t.host = endpointHost ∧
            ∃ rest, t.canonicalURI = '/' :: (uriEncode bucket false ++ rest) ∧
              (rest = [] ∨ ∃ r2, rest = '/' :: r2)) ∧
      (∀ endpointHost bucket key t,
        newRequestTarget false endpointHost bucket key = some t →
          t.host = hostWithBucket bucket endpointHost ∧
            t.canonicalURI = buildCanonicalPath false [] (goTrimLeading key (str "/"))) ∧
      (∀ endpointHost key, newRequestTarget false endpointHost [] key = none) ∧
      (∀ bucket endpointHost, ':' ∉ endpointHost →
        hostWithBucket bucket endpointHost = bucket ++ str "." ++ endpointHost) ∧
      (∀ bucket a c, ':' ∉ a → ':' ∉ c →
        hostWithBucket bucket (a ++ ':' :: c) = bucket ++ str "." ++ (a ++ ':' :: c)) := by
  refine ⟨?_, ?_, ?_, ?_, ?_⟩
  · intro endpointHost bucket key t ht
    simp only [newRequestTarget, ite_true, if_pos, Option.some.injEq] at ht
    subst ht
    refine ⟨rfl, ?_⟩
    unfold buildCanonicalPath
    by_cases hck : goTrimLeading key ['/'] = []
    · refine ⟨[], ?_, Or.inl rfl⟩
      simp [hck, str]
    · refine ⟨'/' :: List.intercalate ['/']
        ((splitOnChar '/' (goTrimLeading key ['/'])).map fun seg =>
          uriEncode seg false), ?_, Or.inr ⟨_, rfl⟩⟩
      simp [hck, str]
  · intro endpointHost bucket key t ht
    simp only [newRequestTarget, ite_false, if_neg, Bool.false_eq_true] at ht
    by_cases hb : bucket = []
    · simp [hb] at ht
    · simp only [hb, ite_false, if_neg, Option.some.injEq] at ht
      subst ht
      exact ⟨rfl, rfl⟩
  · intro endpointHost key
    simp [newRequestTarget]
  · intro bucket endpointHost hmem
    unfold hostWithBucket
    rw [if_neg (by simpa using hmem)]
  · intro bucket a c ha hc
    have hmem : ':' ∈ a ++ ':' :: c := List.mem_append_right a (List.mem_cons_self ':' c)
    have hcont : (a ++ ':' :: c).contains ':' = true := List.elem_eq_true_of_mem hmem
    unfold hostWithBucket
    rw [if_pos hcont, splitOnChar_append_sep c ha, splitOnChar_not_mem hc]
    simp [str]

/-- C5 counterexample: for an endpoint host holding an IPv6 literal — two
or more colons — the virtual-hosted host is not the bucket prefixed to the
endpoint host: the code keeps only the first two colon-separated fields. -/
theorem claim_C5_counterexample :
    hostWithBucket (str "b") (str "[::1]:9000") = str "b.[:" ∧
      ¬ hostWithBucket (str "b") (str "[::1]:9000") = str "b." ++ str "[::1]:9000" := by
  exact ⟨by decide, by decide⟩

/-- C5 witness: a concrete path-style request and a concrete virtual-hosted
host with one colon. -/
theorem claim_C5_witness :
    newRequestTarget true (str "s3.example.com") (str "bkt") (str "db/f.dump")
        = some ⟨str "s3.example.com", str "/bkt/db/f.dump"⟩ ∧
      hostWithBucket (str "bkt") (str "example.com" ++ ':' :: str "9000")
        = str "bkt" ++ str "." ++ (str "example.com" ++ ':' :: str "9000") :=
  ⟨by decide,
    claim_C5_addressing.2.2.2.2 (str "bkt") (str "example.com") (str "9000")
      (by decide) (by decide)⟩

/-! ## Theorems: pagination, local save and fetch -/

/-- The head of a dropWhile result fails the predicate. -/
theorem dropWhile_head_false {pr : Char → Bool} : ∀ {l : Str} {x : Char} {xs : Str},
    l.dropWhile pr = x :: xs → pr x = false := by
  intro l
  induction l with
  | nil => intro x xs h; cases h
  | cons c cs ih =>
    intro x xs h
    rw [List.dropWhile_cons] at h
    by_cases hc : pr c = true
    · rw [if_pos hc] at h
      exact ih h
    · rw [if_neg hc] at h
      cases h
      simpa using hc

/-- Go path.Base never returns the empty string, so the empty-name guard of
the List method never fires. -/
theorem pathBase_ne_nil (p : Str) : pathBase p ≠ [] := by
  unfold pathBase
  by_cases hp : p = []
  · simp [hp, str]
  · simp only [hp, ite_false, if_neg]
    by_cases hr : (p.reverse.dropWhile fun c => c = '/') = []
    · simp [hr, str]
    · simp only [hr, ite_false, if_neg]
      obtain ⟨x, xs, hx⟩ : ∃ x xs, (p.reverse.dropWhile fun c => c = '/') = x :: xs := by
        cases hcase : p.reverse.dropWhile fun c => c = '/' with
        | nil => exact absurd hcase hr
        | cons y ys => exact ⟨y, ys, rfl⟩
      have hxne : (decide (x = '/')) = false := dropWhile_head_false hx
      rw [hx, List.takeWhile_cons]
      simp only [decide_not, hxne, Bool.not_false, ite_true, if_pos]
      simp

/-- The filter of the List method drops nothing: every object files under
its base name. -/
theorem providerFiles_eq_map (objects : List ListedObject) :
    (objects.filterMap fun o =>
      if pathBase o.key = [] then none
      else some (⟨pathBase o.key, o.modified⟩ : FileInfo))
      = objects.map fun o => ⟨pathBase o.key, o.modified⟩ := by
  induction objects with
  | nil => rfl
  | cons o os ih =>
    rw [List.filterMap_cons, List.map_cons, if_neg (pathBase_ne_nil o.key), ih]

/-- C6: when every page but the last is truncated and carries a
continuation token, the List loop visits every page and accumulates exactly
the objects of all pages, one entry per object, in backend order — hence no
duplicates and no omissions. -/
theorem claim_C6_pagination : ∀ pages : List Page,
    (∀ p ∈ pages.dropLast, p.isTruncated = true ∧ p.nextToken ≠ []) →
      providerList pages =
        (pages.flatMap Page.objects).map fun o => ⟨pathBase o.key, o.modified⟩ := by
  intro pages
  induction pages with
  | nil => intro _; rfl
  | cons page rest ih =>
    intro hchain
    cases rest with
    | nil =>
      show (if page.isTruncated && page.nextToken ≠ [] then _ ++ providerList [] else _) = _
      by_cases h : (page.isTruncated && decide ¬(page.nextToken = [])) = true
      · rw [if_pos h]
        simp [providerFiles_eq_map, providerList]
      · rw [if_neg h]
        simp [providerFiles_eq_map]
    | cons p2 r2 =>
      have hhead : page.isTruncated = true ∧ page.nextToken ≠ [] := by
        refine hchain page ?_
        rw [List.dropLast_cons₂]
        exact List.mem_cons_self _ _
      have htail : ∀ p ∈ (p2 :: r2).dropLast, p.isTruncated = true ∧ p.nextToken ≠ [] := by
        intro p hp
        refine hchain p ?_
        rw [List.dropLast_cons₂]
        exact List.mem_cons_of_mem _ hp
      show (if page.isTruncated && page.nextToken ≠ [] then _ ++ providerList (p2 :: r2) else _) = _
      rw [if_pos (by simp [hhead.1, hhead.2])]
      rw [List.flatMap_cons, List.map_append, providerFiles_eq_map, ih htail]

/-- C6 witness: a two-page listing, the first page truncated with a token,
accumulates both objects. -/
theorem claim_C6_witness :
    providerList [⟨[⟨str "db/a.dump", 5⟩], true, str "t1"⟩,
        ⟨[⟨str "db/b.dump", 6⟩], false, []⟩]
      = ([(⟨[⟨str "db/a.dump", 5⟩], true, str "t1"⟩ : Page),
          ⟨[⟨str "db/b.dump", 6⟩], false, []⟩].flatMap Page.objects).map
          (fun o => ⟨pathBase o.key, o.modified⟩) :=
  claim_C6_pagination _ (by decide)

/-- C8: evaluation of the local Save at the failing scenario — the rename
fails, the copy fails after one of two bytes — showing that Save returns an
error while a partially-written artifact stays visible at the final name,
against the stated guarantee; the companion conjuncts check that the
rename path and the sync requirement behave as the claim describes. -/
theorem claim_C8_partial_save :
    (localSave [7, 7] ⟨true, false, .failAfter 1, true, true⟩).failed = true ∧
      (localSave [7, 7] ⟨true, false, .failAfter 1, true, true⟩).destContent = some [7] ∧
      ¬ (some [(7 : Nat)] = none) ∧ ¬ ([(7 : Nat)] = [7, 7]) ∧
      localSave [7, 7] ⟨true, true, .success, true, true⟩ = ⟨false, some [7, 7]⟩ ∧
      (localSave [7, 7] ⟨true, false, .success, false, true⟩).failed = true := by
  exact ⟨rfl, rfl, by decide, by decide, rfl, rfl⟩

/-- C10: whenever Fetch fails after creating its temporary file, the file
has been removed before Fetch returns; a path is returned only when the
file was written, synced and closed, in that order, and the returned
release function removes exactly that file. -/
theorem claim_C10_fetch (sc : FetchScenario) (tmpName : Str) :
    ((s3Fetch sc tmpName).returned = none →
        FetchEvent.created tmpName ∈ (s3Fetch sc tmpName).events →
          FetchEvent.removed tmpName ∈ (s3Fetch sc tmpName).events) ∧
      (∀ p release, (s3Fetch sc tmpName).returned = some (p, release) →
        p = tmpName ∧ release = [.removed tmpName] ∧
          (s3Fetch sc tmpName).events =
            [.created tmpName, .wrote tmpName, .synced tmpName, .closed tmpName]) := by
  rcases sc with ⟨g, cr, cp, sy, cl⟩
  cases g <;> cases cr <;> cases cp <;> cases sy <;> cases cl <;>
    simp [s3Fetch]

/-- C10 witness: a concrete fetch whose copy fails removes the temporary
file, and a concrete successful fetch returns the path with the removing
release function. -/
theorem claim_C10_witness :
    FetchEvent.removed (str "tmp") ∈
        (s3Fetch ⟨true, true, false, true, true⟩ (str "tmp")).events ∧
      ((str "tmp", [FetchEvent.removed (str "tmp")]) =
        ((str "tmp", [FetchEvent.removed (str "tmp")]) : Str × List FetchEvent)) :=
  ⟨(claim_C10_fetch ⟨true, true, false, true, true⟩ (str "tmp")).1 (by decide) (by decide),
    rfl⟩

end Backuper
